import Mathlib

/-!
Verification of the Report Scoring & Aggregation Engine of `DashAuditFinal.py`.

The Python source is shallowly embedded: strings become `List Char` / `String`,
Python floats become exact rationals (`ℚ`; every value the pipeline computes is
a small dyadic/decimal rational, so this is exact), dict-based severity counts
become a four-field structure, and fallible effects (file reads, the optional
markdown renderer) become `Option`-valued parameters.  Regexes are embedded as
explicit scanning functions that follow the leftmost-match / ordered-alternation
/ greedy-with-backtracking semantics of Python `re` on the concrete patterns
used by the source.  Character classes are modelled at ASCII fidelity, matching
the ASCII behaviour of `\s`, `\w`, `\b`, `str.lower`, `str.upper`.
-/

/-! ### Character helpers (ASCII models of `\s`, `\w`, `str.lower`, `str.upper`) -/

/-- ASCII model of the regex class `\s`: space, tab, newline, carriage return,
form feed, vertical tab. -/
def isSpaceRe (c : Char) : Bool :=
  c == ' ' || c == '\t' || c == '\n' || c == '\r' || c == '\x0c' || c == '\x0b'

/-- ASCII model of the regex class `\w` (used by `\b` word boundaries). -/
def isWordChar (c : Char) : Bool :=
  decide ('A' ≤ c ∧ c ≤ 'Z') || decide ('a' ≤ c ∧ c ≤ 'z') ||
  decide ('0' ≤ c ∧ c ≤ '9') || c == '_'

/-- ASCII lowercasing, modelling the case folding done by `re.IGNORECASE`. -/
def lowerAscii (c : Char) : Char :=
  if 'A' ≤ c ∧ c ≤ 'Z' then Char.ofNat (c.toNat + 32) else c

/-- ASCII uppercasing, modelling Python `str.upper` on the matched letter. -/
def upperAscii (c : Char) : Char :=
  if 'a' ≤ c ∧ c ≤ 'z' then Char.ofNat (c.toNat - 32) else c

/-- Any character that case-folds to a lowercase ASCII letter is a word
character. -/
theorem isWordChar_of_lowerAscii (x p : Char) (hp : 'a' ≤ p ∧ p ≤ 'z')
    (h : lowerAscii x = p) : isWordChar x = true := by
  unfold lowerAscii at h
  by_cases hx : 'A' ≤ x ∧ x ≤ 'Z'
  · simp only [isWordChar, Bool.or_eq_true, decide_eq_true_eq]
    exact Or.inl (Or.inl (Or.inl hx))
  · rw [if_neg hx] at h
    subst h
    simp only [isWordChar, Bool.or_eq_true, decide_eq_true_eq]
    exact Or.inl (Or.inl (Or.inr hp))

/-! ### Case-insensitive literal matching -/

/-- Strip a (lowercase) literal pattern from the front of `cs`,
case-insensitively; returns the remainder on success.  This models how
`re` matches a literal inside an `(?i)` pattern. -/
def stripCI : List Char → List Char → Option (List Char)
  | [], cs => some cs
  | _ :: _, [] => none
  | p :: ps, c :: cs => if lowerAscii c = p then stripCI ps cs else none

theorem stripCI_drop :
    ∀ (ps cs r : List Char), stripCI ps cs = some r → r = cs.drop ps.length := by
  intro ps
  induction ps with
  | nil => intro cs r h; simp only [stripCI, Option.some.injEq] at h; simp [h.symm]
  | cons p ps ih =>
    intro cs r h
    cases cs with
    | nil => simp [stripCI] at h
    | cons c cs =>
      simp only [stripCI] at h
      split at h
      · simpa using ih cs r h
      · exact absurd h (by simp)

theorem stripCI_getD :
    ∀ (ps cs r : List Char), stripCI ps cs = some r →
      ∀ i, i < ps.length → lowerAscii (cs.getD i ' ') = ps.getD i ' ' := by
  intro ps
  induction ps with
  | nil => intro cs r _ i hi; simp at hi
  | cons p ps ih =>
    intro cs r h i hi
    cases cs with
    | nil => simp [stripCI] at h
    | cons c cs =>
      simp only [stripCI] at h
      split at h
      · cases i with
        | zero => simpa using by assumption
        | succ j =>
          simp only [List.getD_cons_succ]
          exact ih cs r h j (by simpa using hi)
      · exact absurd h (by simp)

/-! ### Severity Counter: `count_severities` (`DashAuditFinal.py`, lines 43-47)

`len(re.findall(rf'(?i)\b{level}\b', md_text))` is embedded as a left-to-right
scan (`countAux`) that, on a match, resumes after the matched word — the
non-overlapping semantics of `re.findall`.  The specification side (`countPos`)
counts every position carrying a word-boundary-delimited occurrence; the two
are proved equal. -/

/-- Does a word-boundary-delimited, case-insensitive occurrence of `w` start
right here?  `prev` says whether the character before this position is a word
character (`\b` before); after the match the next character must not be a word
character (`\b` after). -/
def hasWordAt (w : List Char) (prev : Bool) (cs : List Char) : Bool :=
  !prev &&
    (match stripCI w cs with
     | none => false
     | some [] => true
     | some (d :: _) => !isWordChar d)

/-- The `re.findall` scan: try each position left to right; on a match, count
it and resume right after the matched word. -/
def countAux (w : List Char) : Bool → List Char → ℕ
  | _, [] => 0
  | prev, c :: rest =>
    if hasWordAt w prev (c :: rest) then
      1 + countAux w (isWordChar ((c :: rest).getD (w.length - 1) ' '))
            (rest.drop (w.length - 1))
    else
      countAux w (isWordChar c) rest
termination_by _ cs => cs.length
decreasing_by
  · simp only [List.length_cons]
    have := List.length_drop (w.length - 1) rest
    omega
  · simp

def countWord (w : List Char) (cs : List Char) : ℕ := countAux w false cs

/-- `SeverityCounts`: the fixed-key dict `{"critical","high","medium","low"}`
of the source, all keys always present. -/
structure SeverityCounts where
  critical : ℕ
  high : ℕ
  medium : ℕ
  low : ℕ
deriving DecidableEq

def count_severities (md : String) : SeverityCounts :=
  { critical := countWord ("critical".toList) md.toList
    high := countWord ("high".toList) md.toList
    medium := countWord ("medium".toList) md.toList
    low := countWord ("low".toList) md.toList }

/-- The word-boundary flag seen at position `i`: at position `0` it is the
caller-supplied `prev`, later it is read off the previous character. -/
def flagAt (prev : Bool) (cs : List Char) (i : ℕ) : Bool :=
  if i = 0 then prev else isWordChar (cs.getD (i - 1) ' ')

/-- Specification-side count: the number of positions at which a
word-boundary-delimited, case-insensitive occurrence of `w` starts. -/
def posCount (w : List Char) (prev : Bool) (cs : List Char) : ℕ :=
  (List.range cs.length).countP (fun i => hasWordAt w (flagAt prev cs i) (cs.drop i))

/-- Positional count of occurrences of the literal word `w` in `cs`. -/
def countPos (w cs : List Char) : ℕ := posCount w false cs

theorem flagAt_cons (prev : Bool) (c : Char) (cs : List Char) (i : ℕ) :
    flagAt prev (c :: cs) (i + 1) = flagAt (isWordChar c) cs i := by
  cases i with
  | zero => simp [flagAt]
  | succ j => simp [flagAt, List.getD_cons_succ]

theorem posCount_cons (w : List Char) (prev : Bool) (c : Char) (cs : List Char) :
    posCount w prev (c :: cs) =
      (if hasWordAt w prev (c :: cs) then 1 else 0) + posCount w (isWordChar c) cs := by
  unfold posCount
  rw [List.length_cons, List.range_succ_eq_map, List.countP_cons, List.countP_map]
  have hcongr :
      List.countP
        ((fun i => hasWordAt w (flagAt prev (c :: cs) i) ((c :: cs).drop i)) ∘ Nat.succ)
        (List.range cs.length)
      = List.countP (fun i => hasWordAt w (flagAt (isWordChar c) cs i) (cs.drop i))
          (List.range cs.length) := by
    apply List.countP_congr
    intro i _
    simp only [Function.comp_apply, Nat.succ_eq_add_one, flagAt_cons, List.drop_succ_cons]
  rw [hcongr]
  have h0 : flagAt prev (c :: cs) 0 = prev := by simp [flagAt]
  rw [h0]
  have hdrop0 : (c :: cs).drop 0 = c :: cs := rfl
  rw [hdrop0]
  omega

/-- While matching inside a word (the flag is `true`), no new occurrence can
start, so peeling the matched characters leaves the positional count
unchanged. -/
theorem posCount_stripCI (w : List Char) :
    ∀ (ps : List Char), (∀ c ∈ ps, 'a' ≤ c ∧ c ≤ 'z') →
      ∀ (text r : List Char), stripCI ps text = some r →
        posCount w true text = posCount w true r := by
  intro ps
  induction ps with
  | nil =>
    intro _ text r h
    simp only [stripCI, Option.some.injEq] at h
    rw [h]
  | cons p ps ih =>
    intro hlz text r h
    cases text with
    | nil => simp [stripCI] at h
    | cons c cs =>
      simp only [stripCI] at h
      split at h
      · rename_i hc
        rw [posCount_cons]
        have hw : isWordChar c = true :=
          isWordChar_of_lowerAscii c p (hlz p (List.mem_cons_self p ps)) hc
        have hfalse : hasWordAt w true (c :: cs) = false := by
          simp [hasWordAt]
        rw [hfalse, hw]
        simpa using ih (fun d hd => hlz d (List.mem_cons_of_mem p hd)) cs r h
      · exact absurd h (by simp)

/-- The `re.findall` scan agrees with the positional count, for a non-empty
all-lowercase-letter word. -/
theorem countAux_eq_posCount (w : List Char) (hne : w ≠ [])
    (hlz : ∀ c ∈ w, 'a' ≤ c ∧ c ≤ 'z') :
    ∀ (n : ℕ) (cs : List Char), cs.length ≤ n → ∀ prev,
      countAux w prev cs = posCount w prev cs := by
  cases w with
  | nil => exact absurd rfl hne
  | cons wh wt =>
    intro n
    induction n with
    | zero =>
      intro cs hcs prev
      have : cs = [] := List.length_eq_zero.mp (Nat.le_zero.mp hcs)
      subst this
      simp [countAux, posCount]
    | succ n ih =>
      intro cs hcs prev
      cases cs with
      | nil => simp [countAux, posCount]
      | cons c rest =>
        rw [countAux, posCount_cons]
        by_cases h : hasWordAt (wh :: wt) prev (c :: rest) = true
        · rw [if_pos h, if_pos h]
          -- extract the successful strip from the match
          have hstrip : ∃ r, stripCI (wh :: wt) (c :: rest) = some r := by
            unfold hasWordAt at h
            rcases hs : stripCI (wh :: wt) (c :: rest) with _ | r
            · rw [hs] at h; simp at h
            · exact ⟨r, rfl⟩
          obtain ⟨r, hs⟩ := hstrip
          have hsplit : lowerAscii c = wh ∧ stripCI wt rest = some r := by
            simp only [stripCI] at hs
            split at hs
            · exact ⟨by assumption, hs⟩
            · exact absurd hs (by simp)
          -- the character just before the resume position is a word character
          have hlast : isWordChar ((c :: rest).getD ((wh :: wt).length - 1) ' ') = true := by
            have hi : wt.length < (wh :: wt).length := by simp
            have hg := stripCI_getD (wh :: wt) (c :: rest) r hs wt.length hi
            have hmem : (wh :: wt).getD wt.length ' ' ∈ wh :: wt := by
              rw [List.getD_eq_getElem (wh :: wt) ' ' hi]
              exact List.getElem_mem hi
            have := isWordChar_of_lowerAscii _ _ (hlz _ hmem) hg
            simpa using this
          have hrlen : r = rest.drop wt.length := by
            have := stripCI_drop (wh :: wt) (c :: rest) r hs
            simpa using this
          have hwc : isWordChar c = true :=
            isWordChar_of_lowerAscii c wh (hlz wh (List.mem_cons_self wh wt)) hsplit.1
          rw [hlast]
          have hlen : (rest.drop ((wh :: wt).length - 1)).length ≤ n := by
            have h1 := List.length_drop ((wh :: wt).length - 1) rest
            have h2 : rest.length ≤ n := by simpa using Nat.succ_le_succ_iff.mp hcs
            omega
          rw [ih _ hlen true]
          have hskip := posCount_stripCI (wh :: wt) wt
            (fun d hd => hlz d (List.mem_cons_of_mem wh hd)) rest r hsplit.2
          have hstep : posCount (wh :: wt) (isWordChar c) rest
              = posCount (wh :: wt) true rest := by
            rw [hwc]
          rw [hstep, hskip, hrlen]
          simp
        · rw [if_neg h, if_neg h]
          have h2 : rest.length ≤ n := by simpa using Nat.succ_le_succ_iff.mp hcs
          rw [ih _ h2 (isWordChar c)]
          omega

theorem countWord_eq_countPos (w : List Char) (hne : w ≠ [])
    (hlz : ∀ c ∈ w, 'a' ≤ c ∧ c ≤ 'z') (cs : List Char) :
    countWord w cs = countPos w cs :=
  countAux_eq_posCount w hne hlz cs.length cs le_rfl false

/-! ### Self-Grade Extractor: `extract_self_grade_score`
(`DashAuditFinal.py`, lines 36-41)

The pattern `(?i)\b(self[-\s]?grade|grade)\s*[:\-]\s*([ABCDEF])\b` is embedded
as a left-to-right search (`searchWith`).  At each position with a word
boundary before it, the alternation is tried in regex order:
`self` + one `[-\s]` char + `grade`, then `selfgrade`, then `grade`; after the
keyword the tail `\s*[:\-]\s*([ABCDEF])\b` is matched (`matchGradeTail`).
Since `:` and `-` are not whitespace, the greedy `\s*` runs are forced, so the
tail is deterministic. -/

/-- Case-insensitive `[ABCDEF]` under `(?i)`. -/
def isGradeLetter (c : Char) : Bool :=
  c == 'A' || c == 'B' || c == 'C' || c == 'D' || c == 'E' || c == 'F' ||
  c == 'a' || c == 'b' || c == 'c' || c == 'd' || c == 'e' || c == 'f'

/-- The `\b` after the captured letter: end of input or a non-word character. -/
def boundaryAfter : List Char → Bool
  | [] => true
  | d :: _ => !isWordChar d

/-- The tail `\s*[:\-]\s*([ABCDEF])\b` of the source's pattern: the separator
is mandatory.  Returns the captured letter. -/
def matchGradeTail (cs : List Char) : Option Char :=
  match cs.dropWhile isSpaceRe with
  | [] => none
  | s :: r2 =>
    if s == ':' || s == '-' then
      match r2.dropWhile isSpaceRe with
      | [] => none
      | c :: r4 => if isGradeLetter c && boundaryAfter r4 then some c else none
    else none

/-- Keyword alternative `self[-\s]grade` (with the optional class character
present). -/
def selfSep (cs : List Char) : Option (List Char) :=
  match stripCI ("self".toList) cs with
  | none => none
  | some [] => none
  | some (x :: r2) =>
    if x == '-' || isSpaceRe x then stripCI ("grade".toList) r2 else none

/-- Keyword alternative `selfgrade` (optional class character absent). -/
def selfNoSep (cs : List Char) : Option (List Char) :=
  (stripCI ("self".toList) cs).bind (stripCI ("grade".toList))

/-- Keyword alternative `grade`. -/
def bareGrade (cs : List Char) : Option (List Char) := stripCI ("grade".toList) cs

/-- One attempt at the current position: keyword alternatives in regex
backtracking order, each followed by the tail. -/
def matchAt (tail : List Char → Option Char) (cs : List Char) : Option Char :=
  match (selfSep cs).bind tail with
  | some c => some c
  | none =>
    match (selfNoSep cs).bind tail with
    | some c => some c
    | none => (bareGrade cs).bind tail

/-- `re.search`: scan left to right; `prev` tracks whether the previous
character is a word character (for the leading `\b`). -/
def searchWith (tail : List Char → Option Char) : Bool → List Char → Option Char
  | _, [] => none
  | prev, c :: rest =>
    match (if prev then none else matchAt tail (c :: rest)) with
    | some l => some l
    | none => searchWith tail (isWordChar c) rest

/-- The grade table `{"A":95,"B":85,"C":75,"D":60,"E":40,"F":40}` with the
`dict.get` default `-1.0`. -/
def gradeLookup (c : Char) : ℚ :=
  if c == 'A' then 95 else if c == 'B' then 85 else if c == 'C' then 75
  else if c == 'D' then 60 else if c == 'E' then 40 else if c == 'F' then 40
  else -1

def extract_self_grade_score (md : String) : ℚ :=
  match searchWith matchGradeTail false md.toList with
  | none => -1
  | some c => gradeLookup (upperAscii c)

/-- Modelled from the spec: the tail with an *optional* separator, as § 4.2
words it — "followed by an optional separator (`:` or `-`) and a single
letter".  Used only to state the refinement comparison for the extractor. -/
def specGradeTail (cs : List Char) : Option Char :=
  let r1 := cs.dropWhile isSpaceRe
  let r3 := match r1 with
            | s :: r2 => if s == ':' || s == '-' then r2.dropWhile isSpaceRe else r1
            | [] => r1
  match r3 with
  | [] => none
  | c :: r4 => if isGradeLetter c && boundaryAfter r4 then some c else none

/-- Modelled from the spec: the extractor as § 4.2 describes it, with the
separator optional. -/
def specExtractSelfGrade (md : String) : ℚ :=
  match searchWith specGradeTail false md.toList with
  | none => -1
  | some c => gradeLookup (upperAscii c)

theorem matchGradeTail_letter (cs : List Char) (c : Char)
    (h : matchGradeTail cs = some c) : isGradeLetter c = true := by
  unfold matchGradeTail at h
  split at h
  · exact absurd h (by simp)
  · split at h
    · split at h
      · exact absurd h (by simp)
      · split at h
        · rename_i hcond
          simp only [Option.some.injEq] at h
          subst h
          exact (Bool.and_eq_true_iff.mp hcond).1
        · exact absurd h (by simp)
    · exact absurd h (by simp)

theorem matchAt_letter (tail : List Char → Option Char)
    (htail : ∀ cs c, tail cs = some c → isGradeLetter c = true) :
    ∀ cs c, matchAt tail cs = some c → isGradeLetter c = true := by
  intro cs c h
  unfold matchAt at h
  split at h
  · rename_i r hr
    obtain ⟨a, _, ha⟩ := Option.bind_eq_some.mp (h ▸ hr)
    exact htail a c ha
  · split at h
    · rename_i r hr
      obtain ⟨a, _, ha⟩ := Option.bind_eq_some.mp (h ▸ hr)
      exact htail a c ha
    · obtain ⟨a, _, ha⟩ := Option.bind_eq_some.mp h
      exact htail a c ha

theorem searchWith_letter (tail : List Char → Option Char)
    (htail : ∀ cs c, tail cs = some c → isGradeLetter c = true) :
    ∀ (cs : List Char) (prev : Bool) (c : Char),
      searchWith tail prev cs = some c → isGradeLetter c = true := by
  intro cs
  induction cs with
  | nil => intro prev c h; simp [searchWith] at h
  | cons x rest ih =>
    intro prev c h
    rw [searchWith] at h
    split at h
    · rename_i l hl
      split at hl
      · exact absurd hl (by simp)
      · simp only [Option.some.injEq] at h
        exact h ▸ matchAt_letter tail htail _ _ hl
    · exact ih (isWordChar x) c h

/-! ### Scoring: `severity_penalty_score`, `combine_scores`
(`DashAuditFinal.py`, lines 49-59)

Python floats are modelled as exact rationals: every quantity here is an
integer or an integer divided by ten, all far inside the range where IEEE
doubles are exact for these operations. -/

def severity_penalty_score (sev : SeverityCounts) : ℚ :=
  let b1 := 100 - min ((sev.critical : ℚ) * 25) 60
  let b2 := b1 - min ((sev.high : ℚ) * 15) 45
  let b3 := b2 - min ((sev.medium : ℚ) * 7) 35
  let b4 := b3 - min ((sev.low : ℚ) * 2) 10
  max 1 (min 100 b4)

/-- Spec-side clamp, as § 4.3 words it. -/
def clamp (lo hi x : ℚ) : ℚ := max lo (min hi x)

/-- Python `round` to an integer: round half to even. -/
def pyRound (q : ℚ) : ℤ :=
  if q - ⌊q⌋ < 1 / 2 then ⌊q⌋
  else if 1 / 2 < q - ⌊q⌋ then ⌊q⌋ + 1
  else if 2 ∣ ⌊q⌋ then ⌊q⌋ else ⌊q⌋ + 1

/-- Python `round(x, 1)`. -/
def round1 (q : ℚ) : ℚ := (pyRound (10 * q) : ℚ) / 10

def combine_scores (self_grade sev_score : ℚ) : ℚ :=
  if self_grade < 0 then round1 sev_score
  else round1 (0.6 * sev_score + 0.4 * self_grade)

theorem pyRound_intCast (n : ℤ) : pyRound (n : ℚ) = n := by
  unfold pyRound
  rw [Int.floor_intCast]
  norm_num

theorem round1_eq_of_ten_mul (q : ℚ) (m : ℤ) (h : 10 * q = (m : ℚ)) :
    round1 q = (m : ℚ) / 10 := by
  rw [round1, h, pyRound_intCast]

theorem round1_intCast (n : ℤ) : round1 (n : ℚ) = (n : ℚ) := by
  have h : (10 : ℚ) * (n : ℚ) = ((10 * n : ℤ) : ℚ) := by push_cast; ring
  rw [round1_eq_of_ten_mul _ _ h]
  push_cast
  ring

/-- The severity score is an integer between 1 and 100. -/
theorem sps_int (sev : SeverityCounts) :
    ∃ n : ℤ, severity_penalty_score sev = (n : ℚ) ∧ 1 ≤ n ∧ n ≤ 100 := by
  refine ⟨max 1 (min 100 (100 - min ((sev.critical : ℤ) * 25) 60
      - min ((sev.high : ℤ) * 15) 45 - min ((sev.medium : ℤ) * 7) 35
      - min ((sev.low : ℤ) * 2) 10)), ?_, ?_, ?_⟩
  · unfold severity_penalty_score
    push_cast
    ring_nf
  · exact le_max_left _ _
  · exact max_le (by norm_num) (min_le_left _ _)

/-- Every value the extractor can return. -/
theorem extract_val (md : String) :
    extract_self_grade_score md = -1 ∨ extract_self_grade_score md = 40 ∨
    extract_self_grade_score md = 60 ∨ extract_self_grade_score md = 75 ∨
    extract_self_grade_score md = 85 ∨ extract_self_grade_score md = 95 := by
  unfold extract_self_grade_score
  rcases hs : searchWith matchGradeTail false md.toList with _ | c
  · exact Or.inl rfl
  · have hlet : isGradeLetter c = true :=
      searchWith_letter matchGradeTail matchGradeTail_letter md.toList false c hs
    simp only [isGradeLetter, Bool.or_eq_true, beq_iff_eq] at hlet
    rcases hlet with ((((((((((h | h) | h) | h) | h) | h) | h) | h) | h) | h) | h) | h <;>
      subst h <;> decide

/-- Bounds for `combine_scores` at an integer severity score and a
sentinel-or-table self-grade. -/
theorem combine_bounds (g : ℚ)
    (hg : g = -1 ∨ ∃ k : ℤ, g = (k : ℚ) ∧ 40 ≤ k ∧ k ≤ 95)
    (sev : SeverityCounts) :
    1 ≤ combine_scores g (severity_penalty_score sev) ∧
      combine_scores g (severity_penalty_score sev) ≤ 100 := by
  obtain ⟨n, hn, h1, h100⟩ := sps_int sev
  rcases hg with hg | ⟨k, hk, hk1, hk2⟩
  · subst hg
    rw [combine_scores, if_pos (by norm_num : (-1 : ℚ) < 0), hn, round1_intCast]
    constructor
    · exact_mod_cast h1
    · exact_mod_cast h100
  · subst hk
    have hk0 : ¬((k : ℚ) < 0) := by
      push_neg
      exact_mod_cast le_trans (by norm_num : (0 : ℤ) ≤ 40) hk1
    rw [combine_scores, if_neg hk0, hn]
    have h10 : (10 : ℚ) * (0.6 * (n : ℚ) + 0.4 * (k : ℚ)) = ((6 * n + 4 * k : ℤ) : ℚ) := by
      push_cast
      ring
    rw [round1_eq_of_ten_mul _ _ h10]
    have h1q : (1 : ℚ) ≤ (n : ℚ) := by exact_mod_cast h1
    have h100q : (n : ℚ) ≤ 100 := by exact_mod_cast h100
    have hk1q : (40 : ℚ) ≤ (k : ℚ) := by exact_mod_cast hk1
    have hk2q : (k : ℚ) ≤ 95 := by exact_mod_cast hk2
    constructor
    · rw [le_div_iff₀ (by norm_num : (0 : ℚ) < 10)]
      push_cast
      linarith
    · rw [div_le_iff₀ (by norm_num : (0 : ℚ) < 10)]
      push_cast
      linarith

/-! ### Markdown renderer fallback: `render_markdown`
(`DashAuditFinal.py`, lines 26-33)

The external `markdown` library is the collaborator; it is modelled as an
`Option`-valued function (`none` = import failure or a raised exception).
The `except` branch escapes `&`, `<`, `>` in that order and wraps the text
in `<pre>`. -/

/-- Python `str.replace` with a single-character needle. -/
def replaceChar (t : Char) (r : List Char) : List Char → List Char
  | [] => []
  | c :: cs => (if c = t then r else [c]) ++ replaceChar t r cs

/-- The fallback escape of the source: `&`, then `<`, then `>`. -/
def escapeHtml (s : String) : String :=
  String.mk (replaceChar '>' ("&gt;".toList)
    (replaceChar '<' ("&lt;".toList)
      (replaceChar '&' ("&amp;".toList) s.toList)))

def render_markdown (renderer : String → Option String) (md : String) : String :=
  match renderer md with
  | some html => html
  | none => "<pre>" ++ escapeHtml md ++ "</pre>"

/-- Spec-side escape: each of `&`, `<`, `>` HTML-escaped, characterwise. -/
def escapeCharSpec (c : Char) : List Char :=
  if c = '&' then "&amp;".toList else if c = '<' then "&lt;".toList
  else if c = '>' then "&gt;".toList else [c]

def escapeListSpec : List Char → List Char
  | [] => []
  | c :: cs => escapeCharSpec c ++ escapeListSpec cs

/-- Spec-side escape on strings. -/
def escapeSpec (s : String) : String := String.mk (escapeListSpec s.toList)

theorem replaceChar_append (t : Char) (r : List Char) :
    ∀ (a b : List Char), replaceChar t r (a ++ b) = replaceChar t r a ++ replaceChar t r b := by
  intro a
  induction a with
  | nil => intro b; simp [replaceChar]
  | cons c cs ih => intro b; simp [replaceChar, ih, List.append_assoc]

/-- The three sequential `str.replace` passes equal the characterwise escape:
the `&`-pass runs first, so the `&` introduced by `&lt;`/`&gt;` is never
re-escaped. -/
theorem escape_passes_eq_spec :
    ∀ cs : List Char,
      replaceChar '>' ("&gt;".toList)
        (replaceChar '<' ("&lt;".toList)
          (replaceChar '&' ("&amp;".toList) cs)) = escapeListSpec cs := by
  intro cs
  induction cs with
  | nil => rfl
  | cons c cs ih =>
    show replaceChar '>' _ (replaceChar '<' _
        ((if c = '&' then ("&amp;".toList) else [c]) ++ replaceChar '&' _ cs)) = _
    rw [replaceChar_append, replaceChar_append]
    rw [show escapeListSpec (c :: cs) = escapeCharSpec c ++ escapeListSpec cs from rfl, ← ih]
    congr 1
    by_cases h1 : c = '&'
    · subst h1; decide
    · rw [if_neg h1]
      by_cases h2 : c = '<'
      · subst h2; decide
      · by_cases h3 : c = '>'
        · subst h3; decide
        · simp [replaceChar, escapeCharSpec, h1, h2, h3]

theorem escapeHtml_eq_escapeSpec (s : String) : escapeHtml s = escapeSpec s := by
  unfold escapeHtml escapeSpec
  rw [escape_passes_eq_spec]

/-! ### Title derivation and Report Loader: `load_reports`
(`DashAuditFinal.py`, lines 75-95)

The title regex `^\s*#\s+(.+)$` under `re.MULTILINE`: `^` anchors at the
start of the string or after a newline; `\s*` before `#` is forced (no `#` is
whitespace); after `#`, the greedy `\s+` backs off from the longest whitespace
run until the rest of the line (`(.+)$`, at least one non-newline character up
to the next newline or the end) is non-empty.  `tryK` is that backtracking
loop; `findHeading` is the leftmost `re.search` over the anchor positions. -/

/-- Backtracking of the greedy `\s+` after `#`: try taking `k` whitespace
characters, longest first, and accept the first split where `(.+)$` captures a
non-empty run of non-newline characters. -/
def tryK (t : List Char) : ℕ → Option (List Char)
  | 0 => none
  | k + 1 =>
    let g := (t.drop (k + 1)).takeWhile (fun c => c != '\n')
    if g.isEmpty then tryK t k else some g

/-- One anchor position: `\s*#\s+(.+)$`. -/
def matchHeadingAt (cs : List Char) : Option (List Char) :=
  match cs.dropWhile isSpaceRe with
  | '#' :: t => tryK t ((t.takeWhile isSpaceRe).length)
  | _ => none

/-- `re.search` with `re.MULTILINE`: try the start of every line, leftmost
first. -/
def findHeading (cs : List Char) : Option (List Char) :=
  match matchHeadingAt cs with
  | some g => some g
  | none =>
    match h : cs.dropWhile (fun c => c != '\n') with
    | [] => none
    | _ :: rest => findHeading rest
termination_by cs.length
decreasing_by
  have hle := (List.dropWhile_sublist (l := cs) (fun c => c != '\n')).length_le
  rw [h] at hle
  simp only [List.length_cons] at hle
  omega

/-- Python `str.strip`. -/
def trimChars (l : List Char) : List Char :=
  ((l.dropWhile isSpaceRe).reverse.dropWhile isSpaceRe).reverse

/-- `title = (m.group(1).strip() if m else p.stem)` (line 89). -/
def deriveTitle (md stem : String) : String :=
  match findHeading md.toList with
  | some g => String.mk (trimChars g)
  | none => stem

/-- A list with a non-whitespace character does not strip to nothing. -/
theorem trimChars_ne_nil (l : List Char) (h : ∃ c ∈ l, isSpaceRe c = false) :
    trimChars l ≠ [] := by
  intro hnil
  obtain ⟨c, hc, hcs⟩ := h
  unfold trimChars at hnil
  rw [List.reverse_eq_nil_iff, List.dropWhile_eq_nil_iff] at hnil
  have hall : ∀ d ∈ l.dropWhile isSpaceRe, isSpaceRe d = true := by
    intro d hd
    exact hnil d (List.mem_reverse.mpr hd)
  have : isSpaceRe c = true := by
    have hsplit := List.takeWhile_append_dropWhile (p := isSpaceRe) (l := l)
    rcases List.mem_append.mp (by rw [hsplit]; exact hc) with hmem | hmem
    · exact List.mem_takeWhile_imp hmem
    · exact hall c hmem
  rw [this] at hcs
  cases hcs

/-- One report source: its path (the sort key and stored identifier), its
filename stem (the title fallback), and the result of reading it (`none`
models an unreadable source, the `except: continue` branch). -/
structure Source where
  path : String
  stem : String
  content : Option String
deriving DecidableEq

/-- The `ReportItem` dataclass (lines 62-72).  `mtime` is a filesystem
timestamp, outside the pure model. -/
structure ReportItem where
  filename : String
  title : String
  html : String
  text : String
  severity : SeverityCounts
  self_grade_score : ℚ
  severity_score : ℚ
  final_score : ℚ
deriving DecidableEq

/-- The loop body of `load_reports` for one successfully read source. -/
def mkItem (renderer : String → Option String) (s : Source) (md : String) : ReportItem :=
  let sev := count_severities md
  let ss := severity_penalty_score sev
  let gs := extract_self_grade_score md
  { filename := s.path
    title := deriveTitle md s.stem
    html := render_markdown renderer md
    text := md
    severity := sev
    self_grade_score := gs
    severity_score := ss
    final_score := combine_scores gs ss }

/-- `load_reports`: sort the discovered sources, then build one record per
readable source, skipping unreadable ones. -/
def load_reports (renderer : String → Option String) (srcs : List Source) :
    List ReportItem :=
  (List.insertionSort (fun a b : Source => a.path ≤ b.path) srcs).filterMap
    (fun s => s.content.map (mkItem renderer s))

theorem loadLoop_filenames (renderer : String → Option String) :
    ∀ l : List Source,
      (l.filterMap (fun s => s.content.map (mkItem renderer s))).map
          (fun it => it.filename)
        = (l.filter (fun s => s.content.isSome)).map (fun s => s.path) := by
  intro l
  induction l with
  | nil => rfl
  | cons s l ih =>
    rcases hc : s.content with _ | md
    · simp [List.filterMap_cons, List.filter_cons, hc, ih]
    · simp [List.filterMap_cons, List.filter_cons, hc, ih, mkItem]

instance : IsTotal Source (fun a b : Source => a.path ≤ b.path) :=
  ⟨fun a b => le_total a.path b.path⟩

instance : IsTrans Source (fun a b : Source => a.path ≤ b.path) :=
  ⟨fun _ _ _ hab hbc => le_trans hab hbc⟩

/-! ### Dataset Aggregator: the filter chain of `renderList`
(`DashAuditFinal.py`, HTML template, lines 235-247)

The JS filters records by free-text substring (over lowercased title or
filename), by `Math.round(final_score) >= minScore`, and — when any severity
chips are active — by `chips.some(c => severity[c] > 0)`.  Sorting and DOM
code are presentation-only and not modelled. -/

/-- The four severity chips of the sidebar. -/
inductive SevLevel
  | critical
  | high
  | medium
  | low
deriving DecidableEq

/-- `it.severity[c]` — every key is always present. -/
def sevGet (sev : SeverityCounts) : SevLevel → ℕ
  | .critical => sev.critical
  | .high => sev.high
  | .medium => sev.medium
  | .low => sev.low

/-- Does the lowercased needle start here (exact match, needles are already
lowercased by the caller as in the JS)? -/
def startsL : List Char → List Char → Bool
  | [], _ => true
  | _ :: _, [] => false
  | n :: ns, c :: cs => n == c && startsL ns cs

/-- JS `String.prototype.includes` on character lists: the empty needle is
always found. -/
def isSubL (nd : List Char) : List Char → Bool
  | [] => nd.isEmpty
  | c :: rest => startsL nd (c :: rest) || isSubL nd rest

/-- JS `String.prototype.toLowerCase` (ASCII model). -/
def lowerStr (s : String) : String := String.mk (s.toList.map lowerAscii)

/-- JS `Math.round`: round half toward positive infinity. -/
def jsRound (q : ℚ) : ℤ := ⌊q + 1 / 2⌋

/-- `it.title.toLowerCase().includes(q) || it.filename.toLowerCase().includes(q)`. -/
def matchesQuery (q : List Char) (it : ReportItem) : Bool :=
  isSubL q ((lowerStr it.title).toList) || isSubL q ((lowerStr it.filename).toList)

/-- The conjunction of the three predicates of `renderList`: free-text match,
inclusive rounded minimum score, and at least one active severity chip with a
non-zero count (logical OR over the chips). -/
def passesFilters (q : List Char) (minScore : ℤ) (chips : List SevLevel)
    (it : ReportItem) : Bool :=
  (matchesQuery q it && decide (minScore ≤ jsRound it.final_score)) &&
    chips.any (fun c => decide (0 < sevGet it.severity c))

/-- The filter chain of `renderList`: the free-text and minimum-score filters
always run, the severity-chip filter only when some chip is active. -/
def renderListFilter (data : List ReportItem) (qRaw : String) (minScore : ℤ)
    (chips : List SevLevel) : List ReportItem :=
  let q := (lowerStr qRaw).toList
  let arr := (data.filter (fun it => matchesQuery q it)).filter
    (fun it => decide (minScore ≤ jsRound it.final_score))
  if chips.isEmpty then arr
  else arr.filter (fun it => chips.any (fun c => decide (0 < sevGet it.severity c)))

/-! ### The claims -/

/-- Claim C1: for every `SeverityCounts` with counts `c, h, m, l`, the severity
score computed by `severity_penalty_score` equals
`clamp(100 - min(25c, 60) - min(15h, 45) - min(7m, 35) - min(2l, 10), 1, 100)`. -/
theorem severity_penalty_score_matches_spec (sev : SeverityCounts) :
    severity_penalty_score sev =
      clamp 1 100 (100 - min (25 * (sev.critical : ℚ)) 60
        - min (15 * (sev.high : ℚ)) 45 - min (7 * (sev.medium : ℚ)) 35
        - min (2 * (sev.low : ℚ)) 10) := by
  unfold severity_penalty_score clamp
  ring_nf

/-- Claim C5: `count_severities` returns exactly the four fixed keys (enforced
by the `SeverityCounts` type), each value being the number of case-insensitive
word-boundary-delimited occurrences of the corresponding literal word
(`countPos`), and the empty string yields all-zero counts. -/
theorem count_severities_spec :
    (∀ md : String,
        count_severities md =
          { critical := countPos ("critical".toList) md.toList
            high := countPos ("high".toList) md.toList
            medium := countPos ("medium".toList) md.toList
            low := countPos ("low".toList) md.toList }) ∧
      count_severities "" = { critical := 0, high := 0, medium := 0, low := 0 } := by
  constructor
  · intro md
    unfold count_severities
    rw [countWord_eq_countPos _ (by decide) (by decide),
      countWord_eq_countPos _ (by decide) (by decide),
      countWord_eq_countPos _ (by decide) (by decide),
      countWord_eq_countPos _ (by decide) (by decide)]
  · have h : ("" : String).toList = [] := rfl
    simp [count_severities, countWord, h, countAux]

/-- Claim C2, counterexample: the claim says the separator after the keyword
is optional, but the source pattern `\s*[:\-]\s*` requires it; on the text
`"grade A"` the spec-worded extractor returns 95 while the source extractor
returns the sentinel. -/
theorem extract_self_grade_counterexample :
    specExtractSelfGrade "grade A" = 95 ∧ extract_self_grade_score "grade A" = -1 := by
  decide

/-- Claim C2, amended: the extractor finds the first case-insensitive
occurrence of "grade" (optionally prefixed "self-grade"), followed by a
mandatory separator `:` or `-` (with optional surrounding whitespace) and a
letter in A-F, maps it through A=95, B=85, C=75, D=60, E=40, F=40, returns
the sentinel -1 exactly when no match exists, and never returns a value
outside the set. -/
theorem extract_self_grade_amended :
    (∀ md : String,
        extract_self_grade_score md = -1 ∨ extract_self_grade_score md = 40 ∨
        extract_self_grade_score md = 60 ∨ extract_self_grade_score md = 75 ∨
        extract_self_grade_score md = 85 ∨ extract_self_grade_score md = 95) ∧
    (∀ md : String,
        extract_self_grade_score md = -1 ↔
          searchWith matchGradeTail false md.toList = none) ∧
    extract_self_grade_score "Self-Grade: A" = 95 ∧
    extract_self_grade_score "self grade - b" = 85 ∧
    extract_self_grade_score "GRADE:c" = 75 ∧
    extract_self_grade_score "grade :  D" = 60 ∧
    extract_self_grade_score "grade- e" = 40 ∧
    extract_self_grade_score "selfgrade:F" = 40 ∧
    extract_self_grade_score "Grade C" = -1 := by
  refine ⟨extract_val, ?_, by decide, by decide, by decide, by decide, by decide,
    by decide, by decide⟩
  intro md
  constructor
  · intro h
    by_contra hne
    rcases hs : searchWith matchGradeTail false md.toList with _ | c
    · exact hne hs
    · have hlet := searchWith_letter matchGradeTail matchGradeTail_letter md.toList false c hs
      unfold extract_self_grade_score at h
      rw [hs] at h
      simp only [isGradeLetter, Bool.or_eq_true, beq_iff_eq] at hlet
      rcases hlet with ((((((((((hc | hc) | hc) | hc) | hc) | hc) | hc) | hc)
        | hc) | hc) | hc) | hc <;> subst hc <;> revert h <;> decide
  · intro h
    simp only [String.toList] at h
    simp [extract_self_grade_score, h]

/-- Claim C3: `combine_scores` leaves the severity score unchanged at the
absence sentinel — both for every one-decimal score in [1, 100] and for every
actual output of `severity_penalty_score` — and otherwise returns
`round(0.6 * sev_score + 0.4 * self_grade, 1)` for each table grade. -/
theorem combine_scores_spec :
    (∀ s : ℚ, 1 ≤ s → s ≤ 100 → (∃ m : ℤ, 10 * s = (m : ℚ)) →
        combine_scores (-1) s = s) ∧
    (∀ sev : SeverityCounts,
        combine_scores (-1) (severity_penalty_score sev) = severity_penalty_score sev) ∧
    (∀ g : ℚ, g ∈ ({40, 60, 75, 85, 95} : Set ℚ) → ∀ s : ℚ,
        combine_scores g s = round1 (0.6 * s + 0.4 * g)) := by
  refine ⟨?_, ?_, ?_⟩
  · intro s _ _ hm
    obtain ⟨m, hm⟩ := hm
    rw [combine_scores, if_pos (by norm_num : (-1 : ℚ) < 0),
      round1_eq_of_ten_mul s m hm]
    rw [eq_comm, eq_div_iff (by norm_num : (10 : ℚ) ≠ 0)]
    linarith
  · intro sev
    obtain ⟨n, hn, _, _⟩ := sps_int sev
    rw [hn, combine_scores, if_pos (by norm_num : (-1 : ℚ) < 0), round1_intCast]
  · intro g hg s
    have hg0 : ¬(g < 0) := by
      simp only [Set.mem_insert_iff, Set.mem_singleton_iff] at hg
      rcases hg with h | h | h | h | h <;> subst h <;> norm_num
    rw [combine_scores, if_neg hg0]

/-- Witness for Claim C3 at concrete inputs. -/
theorem combine_scores_spec_witness :
    combine_scores (-1) 40 = 40 ∧ combine_scores 95 70 = round1 (0.6 * 70 + 0.4 * 95) := by
  constructor
  · exact combine_scores_spec.1 40 (by norm_num) (by norm_num) ⟨400, by norm_num⟩
  · exact combine_scores_spec.2.2 95 (by simp) 70

/-- Claim C4: for every input text, the final score of the pipeline —
`severity_penalty_score` on the counted severities combined with the extracted
self-grade by `combine_scores` — lies in [1, 100], however large the counts. -/
theorem final_score_in_range (md : String) :
    1 ≤ combine_scores (extract_self_grade_score md)
          (severity_penalty_score (count_severities md)) ∧
      combine_scores (extract_self_grade_score md)
          (severity_penalty_score (count_severities md)) ≤ 100 := by
  apply combine_bounds
  rcases extract_val md with h | h | h | h | h | h
  · exact Or.inl h
  · exact Or.inr ⟨40, by rw [h]; norm_num, by norm_num, by norm_num⟩
  · exact Or.inr ⟨60, by rw [h]; norm_num, by norm_num, by norm_num⟩
  · exact Or.inr ⟨75, by rw [h]; norm_num, by norm_num, by norm_num⟩
  · exact Or.inr ⟨85, by rw [h]; norm_num, by norm_num, by norm_num⟩
  · exact Or.inr ⟨95, by rw [h]; norm_num, by norm_num, by norm_num⟩

/-- One unfolding step of `findHeading` (its defining equation). -/
theorem findHeading_eq (cs : List Char) :
    findHeading cs =
      match matchHeadingAt cs with
      | some g => some g
      | none =>
        match cs.dropWhile (fun c => c != '\n') with
        | [] => none
        | _ :: rest => findHeading rest := by
  rw [findHeading]
  rcases hm : matchHeadingAt cs with _ | g
  · rcases hd : cs.dropWhile (fun c => c != '\n') with _ | ⟨d, rest⟩ <;> rfl
  · rfl

/-- Claim C6, counterexample: the loader's record for the text `"#  "`
(heading marker followed only by whitespace) has an empty title even though
the fallback stem is non-empty, so not every produced record has a non-empty
title. -/
theorem load_title_empty_counterexample :
    (mkItem (fun _ => none) ⟨"report.md", "report", some "#  "⟩ "#  ").title = "" ∧
      ("report" : String) ≠ "" := by
  constructor
  · show deriveTitle "#  " "report" = ""
    have hf : findHeading ("#  ".toList) = some [' '] := by
      rw [findHeading_eq]
      have hm : matchHeadingAt ("#  ".toList) = some [' '] := by decide
      rw [hm]
    unfold deriveTitle
    rw [hf]
    decide
  · decide

/-- Claim C6, amended: the title is the trimmed capture of the first match of
the heading pattern when one exists, and the filename stem otherwise; the
title is non-empty provided the stem is non-empty and any matched heading
capture contains a non-whitespace character (for `"#  "` the capture is all
whitespace and the title is empty); the loader is a total function of the
text. -/
theorem deriveTitle_amended (md stem : String) :
    (findHeading md.toList = none → deriveTitle md stem = stem) ∧
    (∀ g, findHeading md.toList = some g →
        deriveTitle md stem = String.mk (trimChars g)) ∧
    (stem ≠ "" →
      (∀ g, findHeading md.toList = some g → ∃ c ∈ g, isSpaceRe c = false) →
      deriveTitle md stem ≠ "") := by
  refine ⟨?_, ?_, ?_⟩
  · intro h
    unfold deriveTitle
    rw [h]
  · intro g h
    unfold deriveTitle
    rw [h]
  · intro hstem hg
    unfold deriveTitle
    rcases hf : findHeading md.toList with _ | g
    · exact hstem
    · have hne := trimChars_ne_nil g (hg g hf)
      intro hc
      apply hne
      have := congrArg String.data hc
      simpa using this

/-- Witness for Claim C6 at concrete inputs. -/
theorem deriveTitle_amended_witness :
    deriveTitle "# Hello" "r" ≠ "" ∧ deriveTitle "plain text" "r" = "r" := by
  have hf : findHeading ("# Hello".toList) = some ("Hello".toList) := by
    rw [findHeading_eq]
    have hm : matchHeadingAt ("# Hello".toList) = some ("Hello".toList) := by decide
    rw [hm]
  have hn : findHeading ("plain text".toList) = none := by
    rw [findHeading_eq]
    have hm : matchHeadingAt ("plain text".toList) = none := by decide
    rw [hm]
    have hd : ("plain text".toList).dropWhile (fun c => c != '\n') = [] := by decide
    rw [hd]
  constructor
  · apply (deriveTitle_amended "# Hello" "r").2.2 (by decide)
    intro g h
    rw [hf] at h
    injection h with h
    subst h
    decide
  · exact (deriveTitle_amended "plain text" "r").1 hn

/-- Claim C7: a read failure on one source is skipped and never aborts the
batch: the loader produces exactly one record per successfully read source,
in sorted order, whatever mixture of readable and unreadable sources the
batch contains. -/
theorem load_reports_skips_failures (renderer : String → Option String)
    (srcs : List Source) :
    (load_reports renderer srcs).length
        = (srcs.filter (fun s => s.content.isSome)).length ∧
      (load_reports renderer srcs).map (fun it => it.filename)
        = ((List.insertionSort (fun a b : Source => a.path ≤ b.path) srcs).filter
            (fun s => s.content.isSome)).map (fun s => s.path) := by
  have hmap := loadLoop_filenames renderer
    (List.insertionSort (fun a b : Source => a.path ≤ b.path) srcs)
  constructor
  · have hlen := congrArg List.length hmap
    simp only [List.length_map] at hlen
    unfold load_reports
    rw [hlen]
    exact ((List.perm_insertionSort _ srcs).filter _).length_eq
  · exact hmap

/-- Claim C8: when the external renderer fails, `render_markdown` returns the
escaped-plaintext fallback — the text with `&`, `<`, `>` HTML-escaped, wrapped
in a `<pre>` element — instead of raising, so the record is still produced. -/
theorem render_markdown_fallback (renderer : String → Option String) (md : String)
    (h : renderer md = none) :
    render_markdown renderer md = "<pre>" ++ escapeSpec md ++ "</pre>" := by
  unfold render_markdown
  rw [h, escapeHtml_eq_escapeSpec]

/-- Witness for Claim C8 at a concrete failing renderer and text. -/
theorem render_markdown_fallback_witness :
    render_markdown (fun _ => none) "a<b & c>" = "<pre>a&lt;b &amp; c&gt;</pre>" := by
  rw [render_markdown_fallback (fun _ => none) "a<b & c>" rfl]
  decide

/-- Claim C9: with a non-empty set of active severity chips, the `renderList`
filter chain keeps exactly the records passing the conjunction (logical AND)
of the free-text predicate, the inclusive rounded minimum-score predicate,
and the severity predicate that holds when any selected level has a non-zero
count (logical OR over the chips). -/
theorem renderList_filter_spec (data : List ReportItem) (qRaw : String)
    (minScore : ℤ) (chips : List SevLevel) (h : chips ≠ []) :
    renderListFilter data qRaw minScore chips =
      data.filter (passesFilters ((lowerStr qRaw).toList) minScore chips) := by
  unfold renderListFilter passesFilters
  rw [if_neg (by simpa using h)]
  rw [List.filter_filter, List.filter_filter]
  apply List.filter_congr
  intro it _
  simp only [Bool.and_comm, Bool.and_left_comm, Bool.and_assoc]

/-- Witness for Claim C9 at a concrete dataset and chip selection. -/
theorem renderList_filter_spec_witness :
    renderListFilter [⟨"a.md", "A", "", "", ⟨1, 0, 0, 0⟩, -1, 40, 40⟩] "" 1
        [SevLevel.critical] =
      List.filter (passesFilters ((lowerStr "").toList) 1 [SevLevel.critical])
        [⟨"a.md", "A", "", "", ⟨1, 0, 0, 0⟩, -1, 40, 40⟩] :=
  renderList_filter_spec _ _ _ _ (by simp)

/-- Claim C10: `load_reports` sorts the discovered sources before processing,
so the returned records are in ascending lexicographic order of source path,
independent of the enumeration order. -/
theorem load_reports_sorted (renderer : String → Option String) (srcs : List Source) :
    List.Sorted (fun a b : String => a ≤ b)
      ((load_reports renderer srcs).map (fun it => it.filename)) := by
  unfold load_reports
  rw [loadLoop_filenames]
  have hs : List.Sorted (fun a b : Source => a.path ≤ b.path)
      (List.insertionSort (fun a b : Source => a.path ≤ b.path) srcs) :=
    List.sorted_insertionSort _ srcs
  have hf := List.Pairwise.filter (R := fun a b : Source => a.path ≤ b.path)
    (fun s => s.content.isSome) hs
  exact (List.pairwise_map).mpr hf
